import Mathlib

/-!
Verification of `lab_4_fill_words_by_ngrams/main.py`.

Shallow embedding conventions:
* Python token ids are natural numbers; Python floats (probabilities,
  perplexities, thresholds) are modelled as rationals, except where a claim
  is genuinely about `exp`/`log`, where real numbers enter.
* A Python dict of probabilities is the list of its key-value pairs
  (keys distinct, insertion order).
* The external collaborators (the n-gram model `generate_next_token`, the
  word processor `encode`/`decode`, and `random.choice`) are parameters of
  the embedded functions.
* A function that can raise `ValueError` returns `Except String`, the
  string being the message of the raised error.
-/

/-- Token ids produced by the word processor (Python `int`). -/
abbrev Token := ℕ

/-- A next-token probability distribution: the key-value pairs of the dict
returned by `NGramLanguageModel.generate_next_token`. -/
abbrev Distribution := List (Token × ℚ)

/-- Python `str.lower()` restricted to the mapping of each character through
`Char.toLower` (the only use in the source compares answers, which are plain
words). -/
def strLower (s : String) : String := ⟨s.data.map Char.toLower⟩

namespace TopPGenerator

/-- Comparison underlying
`sorted(list(tokens.items()), key=lambda pair: (float(pair[1]), pair[0]), reverse=True)`:
`a` precedes `b` when the pair `(probability, token)` of `a` is
lexicographically greater than or equal to that of `b` (descending by
probability, ties broken by token identity descending). -/
def keyGE (a b : Token × ℚ) : Prop := b.2 < a.2 ∨ (b.2 = a.2 ∧ b.1 ≤ a.1)

instance : DecidableRel keyGE := fun a b => by unfold keyGE; infer_instance

instance : IsTotal (Token × ℚ) keyGE := by
  constructor
  intro a b
  unfold keyGE
  rcases lt_trichotomy a.2 b.2 with h | h | h
  · exact Or.inr (Or.inl h)
  · rcases le_total b.1 a.1 with h1 | h1
    · exact Or.inl (Or.inr ⟨h.symm, h1⟩)
    · exact Or.inr (Or.inr ⟨h, h1⟩)
  · exact Or.inl (Or.inl h)

instance : IsTrans (Token × ℚ) keyGE := by
  constructor
  intro a b c hab hbc
  unfold keyGE at *
  rcases hab with h1 | ⟨h1, h1t⟩ <;> rcases hbc with h2 | ⟨h2, h2t⟩
  · exact Or.inl (h2.trans h1)
  · exact Or.inl (lt_of_eq_of_lt h2 h1)
  · exact Or.inl (lt_of_lt_of_eq h2 h1)
  · exact Or.inr ⟨h2.trans h1, h2t.trans h1t⟩

/-- The list `sorted_tokens` of `TopPGenerator.run`, line 150 of the source. -/
def sortedTokens (dist : Distribution) : Distribution := dist.insertionSort keyGE

/-- Inner `for` loop of `TopPGenerator.run` (lines 152-160): walking the
sorted pairs while accumulating `sum_probability` (the `acc` argument), and at
the first position where the accumulated mass reaches `p` returning the slice
`sorted_tokens[:index + 1]` that is passed to `random.choice`; `none` models
the `for`-`else` branch in which the threshold is never reached. -/
def nucleusGo (p : ℚ) : ℚ → Distribution → Option Distribution
  | _, [] => none
  | acc, x :: xs =>
    if p ≤ acc + x.2 then some [x]
    else Option.map (fun l => x :: l) (nucleusGo p (acc + x.2) xs)

/-- The candidate list handed to `random.choice` at one generation step. -/
def nucleus (dist : Distribution) (p : ℚ) : Option Distribution :=
  nucleusGo p 0 (sortedTokens dist)

/-- The `while seq_len >= 1` loop of `TopPGenerator.run` (lines 144-161),
with the remaining number of tokens as fuel. `model` is
`self._model.generate_next_token` (with `none` for Python `None`), and
`choose` is `random.choice`. -/
def runLoop (model : List Token → Option Distribution)
    (choose : Distribution → Token × ℚ) (p : ℚ) :
    ℕ → List Token → Except String (List Token)
  | 0, encoded => .ok encoded
  | fuel + 1, encoded =>
    match model encoded with
    | none => .error "Model returned None instead of generated tokens."
    | some tokens =>
      if tokens = [] then .ok encoded
      else
        match nucleus tokens p with
        | none => .ok encoded
        | some nuc => runLoop model choose p fuel (encoded ++ [(choose nuc).1])

/-- Predicate tracking whether the loop of `TopPGenerator.run` ever sees the
model return `None` (the only raising branch inside the loop), following
exactly the recursion of `runLoop`. -/
def hitsNone (model : List Token → Option Distribution)
    (choose : Distribution → Token × ℚ) (p : ℚ) :
    ℕ → List Token → Bool
  | 0, _ => false
  | fuel + 1, encoded =>
    match model encoded with
    | none => true
    | some tokens =>
      if tokens = [] then false
      else
        match nucleus tokens p with
        | none => false
        | some nuc => hitsNone model choose p fuel (encoded ++ [(choose nuc).1])

/-- The final encoded sequence produced by the loop of `TopPGenerator.run`
when the model never returns `None`, following the recursion of `runLoop`. -/
def loopFinal (model : List Token → Option Distribution)
    (choose : Distribution → Token × ℚ) (p : ℚ) :
    ℕ → List Token → List Token
  | 0, encoded => encoded
  | fuel + 1, encoded =>
    match model encoded with
    | none => encoded
    | some tokens =>
      if tokens = [] then encoded
      else
        match nucleus tokens p with
        | none => encoded
        | some nuc => loopFinal model choose p fuel (encoded ++ [(choose nuc).1])

/-- Embedding of `TopPGenerator.run` (lines 119-166). `encode` and `decode`
are the word processor methods, with the empty results standing for the falsy
values the source tests with `if not ...`. -/
def run (model : List Token → Option Distribution)
    (encode : String → List Token) (decode : List Token → String)
    (choose : Distribution → Token × ℚ) (p : ℚ)
    (seq_len : ℤ) (prompt : String) : Except String String :=
  if prompt = "" ∨ seq_len ≤ 0 then .error "Inappropriate input."
  else
    let encoded := encode prompt
    if encoded = [] then .error "Could not encode prompt."
    else
      match runLoop model choose p seq_len.toNat encoded with
      | .error e => .error e
      | .ok enc =>
        let decoded := decode enc
        if decoded = "" then .error "Could not decode text."
        else .ok decoded

/-- Cumulative probability mass of the first `k` sorted pairs. -/
def cumTake (l : Distribution) (k : ℕ) : ℚ := ((l.take k).map Prod.snd).sum

end TopPGenerator

namespace TopPGenerator

lemma cumTake_zero (l : Distribution) : cumTake l 0 = 0 := rfl

lemma cumTake_cons_succ (x : Token × ℚ) (xs : Distribution) (k : ℕ) :
    cumTake (x :: xs) (k + 1) = x.2 + cumTake xs k := by
  simp [cumTake]

lemma sortedTokens_perm (dist : Distribution) : (sortedTokens dist).Perm dist :=
  List.perm_insertionSort keyGE dist

lemma sortedTokens_sum (dist : Distribution) :
    ((sortedTokens dist).map Prod.snd).sum = (dist.map Prod.snd).sum :=
  ((sortedTokens_perm dist).map Prod.snd).sum_eq

lemma sortedTokens_ne_nil {dist : Distribution} (h : dist ≠ []) :
    sortedTokens dist ≠ [] := by
  intro hc
  apply h
  have hperm := sortedTokens_perm dist
  rw [hc] at hperm
  exact (hperm.symm.eq_nil)

lemma sortedTokens_mem {dist : Distribution} {x : Token × ℚ}
    (h : x ∈ sortedTokens dist) : x ∈ dist :=
  (sortedTokens_perm dist).mem_iff.mp h

lemma nucleusGo_eq_some {p : ℚ} {l : Distribution} {acc : ℚ} {pre : Distribution}
    (h0 : ¬ p ≤ acc) (h : nucleusGo p acc l = some pre) :
    ∃ k, 0 < k ∧ k ≤ l.length ∧ pre = l.take k ∧ p ≤ acc + cumTake l k ∧
      ∀ j < k, ¬ p ≤ acc + cumTake l j := by
  induction l generalizing acc pre with
  | nil => simp [nucleusGo] at h
  | cons x xs ih =>
    rw [nucleusGo] at h
    by_cases hx : p ≤ acc + x.2
    · rw [if_pos hx] at h
      injection h with h
      refine ⟨1, Nat.one_pos, by simp, by simp [← h], ?_, ?_⟩
      · simpa [cumTake_cons_succ, cumTake_zero] using hx
      · intro j hj
        have hj0 : j = 0 := Nat.lt_one_iff.mp hj
        subst hj0
        simpa [cumTake_zero] using h0
    · rw [if_neg hx] at h
      rcases Option.map_eq_some'.mp h with ⟨pre2, h2, hpre⟩
      obtain ⟨k, hk0, hkle, hpre2, hks, hmin⟩ := ih hx h2
      refine ⟨k + 1, Nat.succ_pos k, by simpa using hkle, ?_, ?_, ?_⟩
      · rw [← hpre, hpre2]
        simp [List.take_succ_cons]
      · rw [cumTake_cons_succ]
        linarith
      · intro j hj
        cases j with
        | zero => simpa [cumTake_zero] using h0
        | succ j2 =>
          rw [cumTake_cons_succ]
          have hm := hmin j2 (Nat.lt_of_succ_lt_succ hj)
          intro hcontra
          apply hm
          linarith

lemma nucleusGo_exists_of_le {p : ℚ} {l : Distribution} {acc : ℚ}
    (hne : l ≠ []) (h : p ≤ acc + (l.map Prod.snd).sum) :
    ∃ pre, nucleusGo p acc l = some pre := by
  induction l generalizing acc with
  | nil => exact absurd rfl hne
  | cons x xs ih =>
    rw [nucleusGo]
    by_cases hx : p ≤ acc + x.2
    · exact ⟨[x], by rw [if_pos hx]⟩
    · rcases eq_or_ne xs [] with hxs | hxs
      · subst hxs
        exfalso
        apply hx
        simpa using h
      · simp only [List.map_cons, List.sum_cons] at h
        obtain ⟨pre, hpre⟩ := @ih (acc + x.2) hxs (by linarith)
        exact ⟨x :: pre, by rw [if_neg hx, hpre]; rfl⟩

lemma nucleusGo_eq_none_of_sum_lt {p : ℚ} {l : Distribution} {acc : ℚ}
    (hnn : ∀ x ∈ l, 0 ≤ x.2) (h : acc + (l.map Prod.snd).sum < p) :
    nucleusGo p acc l = none := by
  induction l generalizing acc with
  | nil => rfl
  | cons x xs ih =>
    simp only [List.map_cons, List.sum_cons] at h
    have hxsum : 0 ≤ (xs.map Prod.snd).sum := by
      apply List.sum_nonneg
      intro y hy
      rcases List.mem_map.mp hy with ⟨z, hz, hzy⟩
      exact hzy ▸ hnn z (List.mem_cons_of_mem _ hz)
    have hx : ¬ p ≤ acc + x.2 := by
      intro hc
      linarith
    rw [nucleusGo, if_neg hx,
      ih (fun y hy => hnn y (List.mem_cons_of_mem _ hy)) (by linarith)]
    rfl

lemma runLoop_eq_ite (model : List Token → Option Distribution)
    (choose : Distribution → Token × ℚ) (p : ℚ) :
    ∀ (fuel : ℕ) (enc : List Token),
      runLoop model choose p fuel enc =
        if hitsNone model choose p fuel enc then
          .error "Model returned None instead of generated tokens."
        else .ok (loopFinal model choose p fuel enc) := by
  intro fuel
  induction fuel with
  | zero => intro enc; rfl
  | succ n ih =>
    intro enc
    cases hm : model enc with
    | none => simp [runLoop, hitsNone, loopFinal, hm]
    | some tokens =>
      by_cases ht : tokens = []
      · simp [runLoop, hitsNone, loopFinal, hm, ht]
      · cases hn : nucleus tokens p with
        | none => simp [runLoop, hitsNone, loopFinal, hm, ht, hn]
        | some nuc => simpa [runLoop, hitsNone, loopFinal, hm, ht, hn] using ih _

end TopPGenerator

namespace TopPGenerator

/-- C1: at any generation step of `TopPGenerator.run` where the model yields
a non-empty distribution whose total mass reaches the threshold `p > 0`, the
candidate slice handed to `random.choice` is exactly the smallest prefix of
the pairs sorted descending by probability (ties broken by token identity
descending) whose cumulative probability is at least `p`; the selected pair
is drawn from that whole prefix and is a member of it, and the loop continues
with exactly the selected token appended. -/
theorem topp_step_chooses_within_nucleus
    (model : List Token → Option Distribution)
    (choose : Distribution → Token × ℚ) (p : ℚ) (fuel : ℕ)
    (enc : List Token) (dist : Distribution)
    (hdist : model enc = some dist) (hne : dist ≠ [])
    (hchoose : ∀ l, l ≠ [] → choose l ∈ l)
    (hp : 0 < p) (hsum : p ≤ (dist.map Prod.snd).sum) :
    ∃ nuc, nucleus dist p = some nuc ∧
      (∃ k, 0 < k ∧ k ≤ (sortedTokens dist).length ∧
        nuc = (sortedTokens dist).take k ∧ p ≤ cumTake (sortedTokens dist) k ∧
        ∀ j < k, ¬ p ≤ cumTake (sortedTokens dist) j) ∧
      choose nuc ∈ nuc ∧ (choose nuc).1 ∈ nuc.map Prod.fst ∧
      runLoop model choose p (fuel + 1) enc =
        runLoop model choose p fuel (enc ++ [(choose nuc).1]) := by
  have hsne : sortedTokens dist ≠ [] := sortedTokens_ne_nil hne
  have hsum2 : p ≤ 0 + ((sortedTokens dist).map Prod.snd).sum := by
    rw [sortedTokens_sum]
    linarith
  obtain ⟨nuc, hnuc⟩ := nucleusGo_exists_of_le hsne hsum2
  have h0 : ¬ p ≤ (0 : ℚ) := by linarith
  obtain ⟨k, hk0, hkle, hpre, hks, hmin⟩ := nucleusGo_eq_some h0 hnuc
  have hnucne : nuc ≠ [] := by
    rw [hpre]
    intro hc
    rcases List.take_eq_nil_iff.mp hc with hk | hl
    · exact absurd hk (Nat.pos_iff_ne_zero.mp hk0)
    · exact hsne hl
  refine ⟨nuc, hnuc,
    ⟨k, hk0, hkle, hpre, by simpa using hks, fun j hj => by simpa using hmin j hj⟩,
    hchoose nuc hnucne, List.mem_map_of_mem Prod.fst (hchoose nuc hnucne), ?_⟩
  have hnuc2 : nucleus dist p = some nuc := hnuc
  simp [runLoop, hdist, hne, hnuc2]

/-- C5: when the model returns an empty (but present) distribution at any
generation step, the loop of `TopPGenerator.run` stops at that step without
an error, keeping the tokens accumulated so far; at the top level the decoded
text of those tokens is returned (possibly covering fewer than the requested
number of new tokens). -/
theorem empty_distribution_stops_generation
    (model : List Token → Option Distribution)
    (encode : String → List Token) (decode : List Token → String)
    (choose : Distribution → Token × ℚ) (p : ℚ) :
    (∀ (fuel : ℕ) (enc : List Token), model enc = some [] →
      runLoop model choose p (fuel + 1) enc = .ok enc) ∧
    (∀ (seq_len : ℤ) (prompt : String), prompt ≠ "" → 0 < seq_len →
      encode prompt ≠ [] → model (encode prompt) = some [] →
      decode (encode prompt) ≠ "" →
      run model encode decode choose p seq_len prompt =
        .ok (decode (encode prompt))) := by
  have hstop : ∀ (fuel : ℕ) (enc : List Token), model enc = some [] →
      runLoop model choose p (fuel + 1) enc = .ok enc := by
    intro fuel enc h
    simp [runLoop, h]
  refine ⟨hstop, ?_⟩
  intro seq_len prompt hprompt hlen henc hmodel hdec
  obtain ⟨m, hm⟩ : ∃ m, seq_len.toNat = m + 1 := by
    refine ⟨seq_len.toNat - 1, ?_⟩
    omega
  unfold run
  rw [if_neg (by push_neg; exact ⟨hprompt, by omega⟩)]
  simp only [henc, if_neg henc, hm, hstop m (encode prompt) hmodel,
    if_neg hdec]
  simp

/-- C9: when the model returns a non-empty distribution of non-negative
probabilities whose total mass is strictly below the threshold `p`, the inner
loop never accumulates enough mass, the `for`-`else` branch breaks out of the
generation loop without selecting a token, and the tokens accumulated so far
are kept, exactly as in the empty-distribution early stop; at the top level
their decoded text is returned. -/
theorem small_mass_stops_generation
    (model : List Token → Option Distribution)
    (encode : String → List Token) (decode : List Token → String)
    (choose : Distribution → Token × ℚ) (p : ℚ) :
    (∀ (fuel : ℕ) (enc : List Token) (dist : Distribution),
      model enc = some dist → (∀ x ∈ dist, 0 ≤ x.2) →
      (dist.map Prod.snd).sum < p →
      runLoop model choose p (fuel + 1) enc = .ok enc) ∧
    (∀ (seq_len : ℤ) (prompt : String) (dist : Distribution),
      prompt ≠ "" → 0 < seq_len → encode prompt ≠ [] →
      model (encode prompt) = some dist → (∀ x ∈ dist, 0 ≤ x.2) →
      (dist.map Prod.snd).sum < p → decode (encode prompt) ≠ "" →
      run model encode decode choose p seq_len prompt =
        .ok (decode (encode prompt))) := by
  have hnone : ∀ (dist : Distribution), (∀ x ∈ dist, 0 ≤ x.2) →
      (dist.map Prod.snd).sum < p → nucleus dist p = none := by
    intro dist hnn hlt
    apply nucleusGo_eq_none_of_sum_lt
    · intro x hx
      exact hnn x (sortedTokens_mem hx)
    · rw [zero_add, sortedTokens_sum]
      exact hlt
  have hstop : ∀ (fuel : ℕ) (enc : List Token) (dist : Distribution),
      model enc = some dist → (∀ x ∈ dist, 0 ≤ x.2) →
      (dist.map Prod.snd).sum < p →
      runLoop model choose p (fuel + 1) enc = .ok enc := by
    intro fuel enc dist h hnn hlt
    by_cases hd : dist = []
    · simp [runLoop, h, hd]
    · simp [runLoop, h, hd, hnone dist hnn hlt]
  refine ⟨hstop, ?_⟩
  intro seq_len prompt dist hprompt hlen henc hmodel hnn hlt hdec
  obtain ⟨m, hm⟩ : ∃ m, seq_len.toNat = m + 1 := by
    refine ⟨seq_len.toNat - 1, ?_⟩
    omega
  unfold run
  rw [if_neg (by push_neg; exact ⟨hprompt, by omega⟩)]
  simp only [henc, if_neg henc, hm,
    hstop m (encode prompt) dist hmodel hnn hlt, if_neg hdec]
  simp

end TopPGenerator

namespace TopPGenerator

/-- Witness for C1 on the distribution A:0.5, B:0.3, C:0.2 (tokens 0, 1, 2)
with threshold 0.7: the nucleus is exactly the pairs for A and B, and the
choice function picks a member of it. -/
theorem topp_step_chooses_within_nucleus_witness :
    ∃ nuc, nucleus [(0, (1:ℚ)/2), (1, 3/10), (2, 1/5)] (7/10) = some nuc ∧
      (fun l : Distribution => l.headD (0, 0)) nuc ∈ nuc ∧
      nuc = [(0, (1:ℚ)/2), (1, 3/10)] := by
  obtain ⟨nuc, hnuc, hk, hmem, hmem2, hstep⟩ := topp_step_chooses_within_nucleus
    (fun _ => some [(0, (1:ℚ)/2), (1, 3/10), (2, 1/5)]) (fun l => l.headD (0, 0))
    (7/10) 0 [7] [(0, (1:ℚ)/2), (1, 3/10), (2, 1/5)] rfl (by simp)
    (fun l hl => by
      cases l with
      | nil => exact absurd rfl hl
      | cons a t => simp)
    (by norm_num) (by norm_num [List.sum_cons])
  have hval : nucleus [(0, (1:ℚ)/2), (1, 3/10), (2, 1/5)] (7/10) =
      some [(0, (1:ℚ)/2), (1, 3/10)] := by
    norm_num [nucleus, sortedTokens, List.insertionSort, List.orderedInsert,
      keyGE, nucleusGo]
  refine ⟨nuc, hnuc, hmem, ?_⟩
  rw [hval] at hnuc
  exact (Option.some_inj.mp hnuc).symm

/-- Witness for C5: a model whose distribution at the prompt encoding is
empty makes `run` return the decoded prompt tokens unchanged. -/
theorem empty_distribution_stops_generation_witness :
    runLoop (fun _ => some []) (fun l => l.headD (0, 0)) ((1:ℚ)/2) 1 [4] =
        .ok [4] ∧
    run (fun _ => some []) (fun _ => [4]) (fun _ => "word")
        (fun l => l.headD (0, 0)) ((1:ℚ)/2) 3 "word" = .ok "word" := by
  have h := empty_distribution_stops_generation (fun _ => some [])
    (fun _ => [4]) (fun _ => "word") (fun l => l.headD (0, 0)) ((1:ℚ)/2)
  exact ⟨h.1 0 [4] rfl,
    h.2 3 "word" (by decide) (by decide) (by decide) rfl (by decide)⟩

/-- Witness for C9: a distribution of total mass 0.3 under threshold 0.5
stops generation and the prompt decodes unchanged. -/
theorem small_mass_stops_generation_witness :
    runLoop (fun _ => some [(0, (1:ℚ)/5), (1, 1/10)]) (fun l => l.headD (0, 0))
        ((1:ℚ)/2) 1 [4] = .ok [4] ∧
    run (fun _ => some [(0, (1:ℚ)/5), (1, 1/10)]) (fun _ => [4])
        (fun _ => "word") (fun l => l.headD (0, 0)) ((1:ℚ)/2) 3 "word" =
      .ok "word" := by
  have h := small_mass_stops_generation (fun _ => some [(0, (1:ℚ)/5), (1, 1/10)])
    (fun _ => [4]) (fun _ => "word") (fun l => l.headD (0, 0)) ((1:ℚ)/2)
  have hnn : ∀ x ∈ ([(0, (1:ℚ)/5), (1, 1/10)] : Distribution), 0 ≤ x.2 := by
    intro x hx
    rcases List.mem_cons.mp hx with h1 | h1
    · rw [h1]; norm_num
    · rcases List.mem_cons.mp h1 with h2 | h2
      · rw [h2]; norm_num
      · simp at h2
  have hlt : (([(0, (1:ℚ)/5), (1, 1/10)] : Distribution).map Prod.snd).sum < 1/2 := by
    norm_num [List.sum_cons]
  exact ⟨h.1 0 [4] _ rfl hnn hlt,
    h.2 3 "word" _ (by decide) (by decide) (by decide) rfl hnn hlt (by decide)⟩

/-- C6 as stated is refuted here: with a word processor whose decode yields
the empty string, `TopPGenerator.run` raises even though the prompt is
non-empty, the requested length is positive, encoding succeeds, and the model
never returns `None` (it returns an empty distribution, the normal stop
condition). -/
theorem run_raises_outside_listed_conditions :
    (∃ e, run (fun _ => some []) (fun _ => [0]) (fun _ => "")
        (fun l => l.headD (0, 0)) ((1:ℚ)/2) 1 "a" = .error e) ∧
    ("a" : String) ≠ "" ∧ ¬ ((1:ℤ) ≤ 0) ∧
    ((fun _ : String => ([0] : List Token)) "a" ≠ []) ∧
    (∀ enc, (fun _ : List Token => some ([] : Distribution)) enc ≠ none) := by
  refine ⟨⟨"Could not decode text.", rfl⟩, by decide, by decide, by decide,
    fun enc => by simp⟩

/-- C6 amended: `TopPGenerator.run` raises a `ValueError` exactly when the
prompt is empty, the requested number of tokens is at most zero, encoding the
prompt yields an empty sequence, the model returns `None` at some generation
step, or decoding the finally accumulated sequence yields an empty text; a
`None` distribution is an error while an empty one is a normal stop. -/
theorem run_error_characterisation
    (model : List Token → Option Distribution)
    (encode : String → List Token) (decode : List Token → String)
    (choose : Distribution → Token × ℚ) (p : ℚ)
    (seq_len : ℤ) (prompt : String) :
    (∃ e, run model encode decode choose p seq_len prompt = .error e) ↔
      prompt = "" ∨ seq_len ≤ 0 ∨ encode prompt = [] ∨
      hitsNone model choose p seq_len.toNat (encode prompt) = true ∨
      decode (loopFinal model choose p seq_len.toNat (encode prompt)) = "" := by
  unfold run
  by_cases h1 : prompt = "" ∨ seq_len ≤ 0
  · rw [if_pos h1]
    simp only [Except.error.injEq, exists_eq']
    tauto
  · rw [if_neg h1]
    push_neg at h1
    by_cases h2 : encode prompt = []
    · simp [h2, h1.1, h1.2]
    · simp only [if_neg h2]
      rw [runLoop_eq_ite]
      by_cases h3 : hitsNone model choose p seq_len.toNat (encode prompt) = true
      · simp [h3, h1.1]
      · rw [if_neg h3]
        by_cases h4 :
            decode (loopFinal model choose p seq_len.toNat (encode prompt)) = ""
        · simp [h4, h3]
        · simp [h4, h3, h1.1, h2]
          omega

/-- Witness for the amended C6: in an environment where none of the error
conditions hold, the characterisation yields that `run` does not raise. -/
theorem run_error_characterisation_witness :
    ¬ (∃ e, run (fun _ => some []) (fun _ => [0]) (fun _ => "ok text")
        (fun l => l.headD (0, 0)) ((1:ℚ)/2) 1 "a" = .error e) := by
  rw [run_error_characterisation]
  intro h
  rcases h with h | h | h | h | h
  · exact absurd h (by decide)
  · exact absurd h (by decide)
  · exact absurd h (by decide)
  · exact absurd h (by decide)
  · exact absurd h (by decide)

end TopPGenerator

/-- Result record produced by `QualityChecker` (class `GenerationResultDTO`
of the source); the perplexity float is modelled as a rational. -/
structure GenerationResultDTO where
  text : String
  perplexity : ℚ
  generation_type : ℕ
deriving DecidableEq

namespace QualityChecker

/-- Python `dict.get` on a distribution: the value of the first (hence, keys
being unique, the only) binding of the token. -/
def getProb (d : Distribution) (t : Token) : Option ℚ :=
  (d.find? (fun x => x.1 == t)).map Prod.snd

/-- The slice `encoded[index - n_gram_size + 1 : index]` of line 318 (for the
indices of the loop, which satisfy `index ≥ n - 1`, this is the window of the
preceding `n - 1` tokens). -/
def contextAt (n : ℕ) (encoded : List Token) (idx : ℕ) : List Token :=
  (encoded.drop (idx + 1 - n)).take (idx - (idx + 1 - n))

/-- The observed token `encoded[index]` of line 319. -/
def tokenAt (encoded : List Token) (idx : ℕ) : Token := encoded.getD idx 0

/-- Indices of the loop `for index in range(n_gram_size - 1, len(encoded))`. -/
def scoreIndices (n : ℕ) (encoded : List Token) : List ℕ :=
  List.range' (n - 1) (encoded.length - (n - 1))

/-- Loop of `_calculate_perplexity` (lines 317-325), collecting in order the
observed probabilities that are present and nonzero (exactly those whose
logarithms the Python float `sum_log` accumulates); the model returning
`None` or an empty dict raises, both through the same `if not
generated_tokens` test of line 321. -/
def collectObs (model : List Token → Option Distribution)
    (encoded : List Token) (n : ℕ) : List ℕ → Except String (List ℚ)
  | [] => .ok []
  | idx :: rest =>
    match model (contextAt n encoded idx) with
    | none => .error "Could not generate tokens."
    | some d =>
      if d = [] then .error "Could not generate tokens."
      else
        match getProb d (tokenAt encoded idx) with
        | none => collectObs model encoded n rest
        | some q =>
          if q = 0 then collectObs model encoded n rest
          else Except.map (fun obs => q :: obs) (collectObs model encoded n rest)

/-- Computable core of `QualityChecker._calculate_perplexity`
(lines 292-330): all the validation and raising branches, returning the list
of observed nonzero probabilities together with the signed denominator
`len(encoded) - n_gram_size`. The Python test `if not sum_log` (the float
sum of logarithms being zero, line 327) is modelled by the equivalent test
that the product of the observed probabilities is `1`: for positive
probabilities the sum of their real logarithms is zero exactly when their
product is one (proved below in `log_sum_eq_zero_iff_prod_eq_one`). -/
def calcPerplexityCore (model : List Token → Option Distribution)
    (encode : String → List Token) (n : ℕ)
    (generated_text : String) : Except String (List ℚ × ℤ) :=
  if generated_text = "" then .error "Inappropriate input."
  else
    let encoded := encode generated_text
    if encoded = [] then .error "Could not encode prompt."
    else
      match collectObs model encoded n (scoreIndices n encoded) with
      | .error e => .error e
      | .ok obs =>
        if obs.prod = 1 then .error "Sum of token probabilities is 0."
        else .ok (obs, (encoded.length : ℤ) - n)

/-- The returned value `exp(-(sum of logarithms) / (length - n))` of
lines 329-330. -/
noncomputable def perplexityValue (obs : List ℚ) (d : ℤ) : ℝ :=
  Real.exp (-(obs.map (fun q : ℚ => Real.log (q : ℝ))).sum / (d : ℝ))

/-- Embedding of `QualityChecker._calculate_perplexity` as a whole: the
computable core composed with the real-valued final formula. -/
noncomputable def calculate_perplexity (model : List Token → Option Distribution)
    (encode : String → List Token) (n : ℕ)
    (generated_text : String) : Except String ℝ :=
  Except.map (fun pr => perplexityValue pr.1 pr.2)
    (calcPerplexityCore model encode n generated_text)

/-- Contribution of one loop position to the log-sum, written after the
words of the specification: the natural logarithm of the probability the
distribution at the context window assigns to the observed token, with zero
or missing probabilities (and absent distributions) contributing nothing. -/
noncomputable def specLogTerm (model : List Token → Option Distribution)
    (encoded : List Token) (n : ℕ) (idx : ℕ) : ℝ :=
  match model (contextAt n encoded idx) with
  | none => 0
  | some d =>
    match getProb d (tokenAt encoded idx) with
    | none => 0
    | some q => if q = 0 then 0 else Real.log (q : ℝ)

end QualityChecker


namespace QualityChecker

lemma collectObs_log_sum (model : List Token → Option Distribution)
    (encoded : List Token) (n : ℕ) :
    ∀ (idxs : List ℕ) (obs : List ℚ),
      collectObs model encoded n idxs = .ok obs →
      (obs.map fun q : ℚ => Real.log (q : ℝ)).sum =
        (idxs.map fun idx => specLogTerm model encoded n idx).sum := by
  intro idxs
  induction idxs with
  | nil =>
    intro obs h
    simp only [collectObs] at h
    injection h with h
    rw [← h]
    simp
  | cons idx rest ih =>
    intro obs h
    cases hm : model (contextAt n encoded idx) with
    | none => simp [collectObs, hm] at h
    | some d =>
      by_cases hd : d = []
      · simp [collectObs, hm, hd] at h
      · cases hg : getProb d (tokenAt encoded idx) with
        | none =>
          simp only [collectObs, hm, if_neg hd, hg] at h
          simp only [List.map_cons, List.sum_cons, ih obs h]
          simp [specLogTerm, hm, hg]
        | some q =>
          by_cases hq : q = 0
          · simp only [collectObs, hm, if_neg hd, hg, if_pos hq] at h
            simp only [List.map_cons, List.sum_cons, ih obs h]
            simp [specLogTerm, hm, hg, hq]
          · simp only [collectObs, hm, if_neg hd, hg, if_neg hq] at h
            cases hr : collectObs model encoded n rest with
            | error e =>
              rw [hr] at h
              simp [Except.map] at h
            | ok obs2 =>
              rw [hr] at h
              simp only [Except.map] at h
              injection h with h
              rw [← h]
              simp only [List.map_cons, List.sum_cons, ih obs2 hr]
              simp [specLogTerm, hm, hg, hq]

/-- C3: for a non-empty generated text whose re-encoding is non-empty and
longer than the n-gram size, provided the model supplies a distribution at
every scored position (so the loop collects the observed probabilities
`obs`) and the accumulated log-sum is not zero (product of `obs` not one),
`_calculate_perplexity` returns `exp(-S / (L - n))` where `S` sums, over the
loop positions, the natural logarithm of the probability assigned to the
observed token at that position, zero or missing probabilities contributing
nothing. -/
theorem perplexity_formula (model : List Token → Option Distribution)
    (encode : String → List Token) (n : ℕ) (text : String) (obs : List ℚ)
    (htext : text ≠ "") (henc : encode text ≠ [])
    (hlen : n < (encode text).length)
    (hobs : collectObs model (encode text) n (scoreIndices n (encode text)) =
      .ok obs)
    (hprod : obs.prod ≠ 1) :
    calculate_perplexity model encode n text =
      .ok (Real.exp (-(((scoreIndices n (encode text)).map
            (fun idx => specLogTerm model (encode text) n idx)).sum) /
          (((encode text).length : ℝ) - n))) := by
  have hlen2 : 0 < (encode text).length := lt_of_le_of_lt (Nat.zero_le n) hlen
  unfold calculate_perplexity calcPerplexityCore
  rw [if_neg htext]
  simp only [if_neg henc, hobs, if_neg hprod, Except.map]
  unfold perplexityValue
  rw [collectObs_log_sum model (encode text) n _ obs hobs]
  norm_num

lemma log_sum_eq_log_prod : ∀ (obs : List ℚ), (∀ q ∈ obs, 0 < q) →
    (obs.map fun q : ℚ => Real.log (q : ℝ)).sum = Real.log ((obs.prod : ℚ) : ℝ)
  | [], _ => by simp
  | q :: t, hpos => by
    have hq : (0 : ℚ) < q := hpos q (List.mem_cons_self q t)
    have ht : ∀ x ∈ t, (0 : ℚ) < x := fun x hx =>
      hpos x (List.mem_cons_of_mem q hx)
    have htp : (0 : ℚ) < t.prod := List.prod_pos ht
    simp only [List.map_cons, List.sum_cons, List.prod_cons]
    rw [log_sum_eq_log_prod t ht, Rat.cast_mul,
      Real.log_mul (by exact_mod_cast hq.ne') (by exact_mod_cast htp.ne')]

lemma log_sum_eq_zero_iff {obs : List ℚ} (hpos : ∀ q ∈ obs, 0 < q) :
    (obs.map fun q : ℚ => Real.log (q : ℝ)).sum = 0 ↔ obs.prod = 1 := by
  have hprod_pos : (0 : ℚ) < obs.prod := List.prod_pos hpos
  rw [log_sum_eq_log_prod obs hpos]
  constructor
  · intro h
    rcases Real.log_eq_zero.mp h with h1 | h1 | h1
    · exfalso
      have hc : (0 : ℝ) < ((obs.prod : ℚ) : ℝ) := by exact_mod_cast hprod_pos
      rw [h1] at hc
      exact lt_irrefl 0 hc
    · exact_mod_cast h1
    · exfalso
      have hc : (0 : ℝ) < ((obs.prod : ℚ) : ℝ) := by exact_mod_cast hprod_pos
      rw [h1] at hc
      linarith
  · intro h
    rw [h]
    simp

/-- C7: `_calculate_perplexity` raises a `ValueError` rather than returning
a value when the generated text is empty, when re-encoding it yields
nothing, and when the accumulated log-sum is exactly zero: for positive
observed probabilities the sum of their real logarithms vanishes exactly
when their product is one, which is the raising test of line 327. -/
theorem perplexity_error_conditions (model : List Token → Option Distribution)
    (encode : String → List Token) (n : ℕ) :
    (∀ text, text = "" →
      calculate_perplexity model encode n text =
        .error "Inappropriate input.") ∧
    (∀ text, text ≠ "" → encode text = [] →
      calculate_perplexity model encode n text =
        .error "Could not encode prompt.") ∧
    (∀ text obs, text ≠ "" → encode text ≠ [] →
      collectObs model (encode text) n (scoreIndices n (encode text)) =
        .ok obs →
      (∀ q ∈ obs, 0 < q) →
      (obs.map fun q : ℚ => Real.log (q : ℝ)).sum = 0 →
      calculate_perplexity model encode n text =
        .error "Sum of token probabilities is 0.") := by
  refine ⟨?_, ?_, ?_⟩
  · intro text h
    unfold calculate_perplexity calcPerplexityCore
    rw [if_pos h]
    rfl
  · intro text h1 h2
    unfold calculate_perplexity calcPerplexityCore
    rw [if_neg h1]
    simp only [h2, if_pos]
    rfl
  · intro text obs h1 h2 hobs hpos hzero
    have hprod : obs.prod = 1 := (log_sum_eq_zero_iff hpos).mp hzero
    unfold calculate_perplexity calcPerplexityCore
    rw [if_neg h1]
    simp only [if_neg h2, hobs, if_pos hprod]
    rfl

lemma collectObs_error_of_bad (model : List Token → Option Distribution)
    (encoded : List Token) (n : ℕ) :
    ∀ (idxs : List ℕ) (idx : ℕ), idx ∈ idxs →
      (model (contextAt n encoded idx) = some [] ∨
       model (contextAt n encoded idx) = none) →
      ∃ e, collectObs model encoded n idxs = .error e := by
  intro idxs
  induction idxs with
  | nil =>
    intro idx h
    simp at h
  | cons j rest ih =>
    intro idx hmem hbad
    cases hm : model (contextAt n encoded j) with
    | none =>
      exact ⟨"Could not generate tokens.", by simp [collectObs, hm]⟩
    | some d =>
      by_cases hd : d = []
      · exact ⟨"Could not generate tokens.", by simp [collectObs, hm, hd]⟩
      · rcases List.mem_cons.mp hmem with heq | hmem2
        · exfalso
          rw [← heq] at hm
          rcases hbad with hb | hb
          · rw [hb] at hm
            injection hm with hm
            exact hd hm.symm
          · rw [hb] at hm
            exact Option.noConfusion hm
        · obtain ⟨e, he⟩ := ih idx hmem2 hbad
          refine ⟨e, ?_⟩
          cases hg : getProb d (tokenAt encoded j) with
          | none => simp [collectObs, hm, hd, hg, he]
          | some q =>
            by_cases hq : q = 0
            · simp [collectObs, hm, hd, hg, hq, he]
            · simp [collectObs, hm, hd, hg, hq, he, Except.map]

/-- C10: during perplexity scoring, the model returning an empty (but
present) distribution at some scored position makes `_calculate_perplexity`
raise a `ValueError`, exactly as the model returning `None` does, through
the shared `if not generated_tokens` test. -/
theorem perplexity_empty_distribution_raises
    (model : List Token → Option Distribution) (encode : String → List Token)
    (n : ℕ) (text : String) (idx : ℕ)
    (htext : text ≠ "") (henc : encode text ≠ [])
    (hidx : idx ∈ scoreIndices n (encode text))
    (hbad : model (contextAt n (encode text) idx) = some [] ∨
            model (contextAt n (encode text) idx) = none) :
    ∃ e, calculate_perplexity model encode n text = .error e := by
  obtain ⟨e, he⟩ :=
    collectObs_error_of_bad model (encode text) n
      (scoreIndices n (encode text)) idx hidx hbad
  refine ⟨e, ?_⟩
  unfold calculate_perplexity calcPerplexityCore
  rw [if_neg htext]
  simp only [if_neg henc, he]
  rfl

end QualityChecker

namespace QualityChecker

/-- Witness for C3: a bigram model over the encoding [0, 1, 0] observing
probabilities 1/3 then 1/2. -/
theorem perplexity_formula_witness :
    collectObs (fun _ => some [(0, (1 : ℚ)/2), (1, 1/3)]) [0, 1, 0] 2
        (scoreIndices 2 [0, 1, 0]) = .ok [1/3, 1/2] ∧
    ([(1 : ℚ)/3, 1/2].prod ≠ 1) ∧
    calculate_perplexity (fun _ => some [(0, (1 : ℚ)/2), (1, 1/3)])
        (fun _ => [0, 1, 0]) 2 "abc" =
      .ok (Real.exp (-(((scoreIndices 2 [0, 1, 0]).map
            (fun idx => specLogTerm (fun _ => some [(0, (1 : ℚ)/2), (1, 1/3)])
              [0, 1, 0] 2 idx)).sum) /
          ((([0, 1, 0] : List Token).length : ℝ) - 2))) := by
  have hobs : collectObs (fun _ => some [(0, (1 : ℚ)/2), (1, 1/3)]) [0, 1, 0] 2
      (scoreIndices 2 [0, 1, 0]) = .ok [1/3, 1/2] := by
    have hg1 : getProb [(0, (1 : ℚ)/2), (1, 1/3)] 1 = some (1/3) := rfl
    have hg2 : getProb [(0, (1 : ℚ)/2), (1, 1/3)] 0 = some (1/2) := rfl
    have hq1 : ((1 : ℚ)/3 = 0) = False := eq_false (by norm_num)
    have hq2 : ((1 : ℚ)/2 = 0) = False := eq_false (by norm_num)
    simp only [show scoreIndices 2 [0, 1, 0] = [1, 2] from rfl, collectObs,
      show tokenAt [0, 1, 0] 1 = 1 from rfl,
      show tokenAt [0, 1, 0] 2 = 0 from rfl,
      hg1, hg2, hq1, hq2, Except.map]
    simp
  refine ⟨hobs, by norm_num, ?_⟩
  exact perplexity_formula (fun _ => some [(0, (1 : ℚ)/2), (1, 1/3)])
    (fun _ => [0, 1, 0]) 2 "abc" [1/3, 1/2] (by decide) (by decide)
    (by decide) hobs (by norm_num)

/-- Witness for C7: the empty text raises, and a model assigning probability
one to the observed token makes the log-sum zero, which raises. -/
theorem perplexity_error_conditions_witness :
    calculate_perplexity (fun _ => some [(0, (1 : ℚ))]) (fun _ => [0, 0]) 2
        "" = .error "Inappropriate input." ∧
    collectObs (fun _ => some [(0, (1 : ℚ))]) [0, 0] 2 (scoreIndices 2 [0, 0])
        = .ok [1] ∧
    calculate_perplexity (fun _ => some [(0, (1 : ℚ))]) (fun _ => [0, 0]) 2
        "aa" = .error "Sum of token probabilities is 0." := by
  have hobs : collectObs (fun _ => some [(0, (1 : ℚ))]) [0, 0] 2
      (scoreIndices 2 [0, 0]) = .ok [1] := by
    have hg1 : getProb [(0, (1 : ℚ))] 0 = some 1 := rfl
    have hq1 : ((1 : ℚ) = 0) = False := eq_false one_ne_zero
    simp only [show scoreIndices 2 [0, 0] = [1] from rfl, collectObs,
      show tokenAt [0, 0] 1 = 0 from rfl, hg1, hq1, Except.map]
    simp
  have h := perplexity_error_conditions (fun _ => some [(0, (1 : ℚ))])
    (fun _ => [0, 0]) 2
  refine ⟨h.1 "" rfl, hobs, h.2.2 "aa" [1] (by decide) (by decide) hobs ?_ ?_⟩
  · intro q hq
    simp only [List.mem_singleton] at hq
    rw [hq]
    norm_num
  · simp

/-- Witness for C10: an always-empty distribution raises during scoring. -/
theorem perplexity_empty_distribution_raises_witness :
    (1 ∈ scoreIndices 2 [0, 0]) ∧
    (∃ e, calculate_perplexity (fun _ => some []) (fun _ => [0, 0]) 2 "aa" =
      .error e) := by
  refine ⟨by decide, ?_⟩
  exact perplexity_empty_distribution_raises (fun _ => some [])
    (fun _ => [0, 0]) 2 "aa" 1 (by decide) (by decide) (by decide)
    (Or.inl rfl)

end QualityChecker

namespace QualityChecker

/-- Ascending comparison on the Python sort key
`(dto.get_perplexity(), dto.get_type())` of line 364. -/
def dtoLE (a b : GenerationResultDTO) : Prop :=
  a.perplexity < b.perplexity ∨
    (a.perplexity = b.perplexity ∧ a.generation_type ≤ b.generation_type)

instance : DecidableRel dtoLE := fun a b => by unfold dtoLE; infer_instance

instance : IsTotal GenerationResultDTO dtoLE := by
  constructor
  intro a b
  unfold dtoLE
  rcases lt_trichotomy a.perplexity b.perplexity with h | h | h
  · exact Or.inl (Or.inl h)
  · rcases le_total a.generation_type b.generation_type with h1 | h1
    · exact Or.inl (Or.inr ⟨h, h1⟩)
    · exact Or.inr (Or.inr ⟨h.symm, h1⟩)
  · exact Or.inr (Or.inl h)

instance : IsTrans GenerationResultDTO dtoLE := by
  constructor
  intro a b c hab hbc
  unfold dtoLE at *
  rcases hab with h1 | ⟨h1, h1t⟩ <;> rcases hbc with h2 | ⟨h2, h2t⟩
  · exact Or.inl (h1.trans h2)
  · exact Or.inl (lt_of_lt_of_eq h1 h2)
  · exact Or.inl (lt_of_eq_of_lt h1 h2)
  · exact Or.inr ⟨h1.trans h2, h1t.trans h2t⟩

/-- Loop of `QualityChecker.run` (lines 354-362): run each registered
generator on the prompt, raise when the produced text is falsy, score it,
raise when the perplexity is falsy (zero), and collect the result records in
registry order. The scorer is the `calcPerp` parameter, standing for
`self._calculate_perplexity` with its float results modelled as rationals. -/
def collectResults (calcPerp : String → Except String ℚ)
    (seq_len : ℤ) (prompt : String) :
    List (ℕ × (ℤ → String → Except String String)) →
      Except String (List GenerationResultDTO)
  | [] => .ok []
  | (gen_type, g) :: rest =>
    match g seq_len prompt with
    | .error e => .error e
    | .ok text =>
      if text = "" then .error "Text was not generated."
      else
        match calcPerp text with
        | .error e => .error e
        | .ok perplexity =>
          if perplexity = 0 then .error "Perplexity was not calculated."
          else
            Except.map (fun tail => ⟨text, perplexity, gen_type⟩ :: tail)
              (collectResults calcPerp seq_len prompt rest)

/-- Embedding of `QualityChecker.run` (lines 332-364): validate the inputs,
collect one scored result per generator, and return them sorted ascending by
the key `(perplexity, generator type)` as on line 364. -/
def run (generators : List (ℕ × (ℤ → String → Except String String)))
    (calcPerp : String → Except String ℚ)
    (seq_len : ℤ) (prompt : String) :
    Except String (List GenerationResultDTO) :=
  if prompt = "" ∨ seq_len ≤ 0 then .error "Inappropriate input."
  else
    Except.map (fun res => res.insertionSort dtoLE)
      (collectResults calcPerp seq_len prompt generators)

/-- C4: any list returned by `QualityChecker.run` is sorted ascending by the
key `(perplexity, generator type id)`: at earlier positions the key is
lexicographically at most the key at later positions, and in particular the
perplexities are ascending. -/
theorem run_results_sorted
    (generators : List (ℕ × (ℤ → String → Except String String)))
    (calcPerp : String → Except String ℚ) (seq_len : ℤ) (prompt : String)
    (res : List GenerationResultDTO)
    (h : run generators calcPerp seq_len prompt = .ok res) :
    ∀ (i j : ℕ) (hi : i < res.length) (hj : j < res.length), i < j →
      ((res.get ⟨i, hi⟩).perplexity < (res.get ⟨j, hj⟩).perplexity ∨
        ((res.get ⟨i, hi⟩).perplexity = (res.get ⟨j, hj⟩).perplexity ∧
         (res.get ⟨i, hi⟩).generation_type ≤
           (res.get ⟨j, hj⟩).generation_type)) ∧
      (res.get ⟨i, hi⟩).perplexity ≤ (res.get ⟨j, hj⟩).perplexity := by
  unfold run at h
  by_cases h1 : prompt = "" ∨ seq_len ≤ 0
  · rw [if_pos h1] at h
    exact absurd h (by simp)
  · rw [if_neg h1] at h
    cases hr : collectResults calcPerp seq_len prompt generators with
    | error e =>
      rw [hr] at h
      exact absurd h (by simp [Except.map])
    | ok results =>
      rw [hr] at h
      simp only [Except.map] at h
      injection h with h
      subst h
      intro i j hi hj hij
      have hsorted : List.Sorted dtoLE (results.insertionSort dtoLE) :=
        List.sorted_insertionSort dtoLE results
      have hrel := hsorted.rel_get_of_lt
        (show (⟨i, hi⟩ : Fin (results.insertionSort dtoLE).length) <
          ⟨j, hj⟩ from hij)
      unfold dtoLE at hrel
      refine ⟨hrel, ?_⟩
      rcases hrel with h2 | ⟨h2, h2t⟩
      · exact le_of_lt h2
      · exact le_of_eq h2

end QualityChecker

namespace QualityChecker

/-- Witness for C4: two generators scored 3 and 2 come back sorted with the
smaller perplexity first. -/
theorem run_results_sorted_witness :
    run [(0, fun _ _ => .ok "ta"), (1, fun _ _ => .ok "tb")]
        (fun t => if t = "ta" then .ok ((3 : ℚ)) else .ok 2) 5 "go" =
      .ok [⟨"tb", 2, 1⟩, ⟨"ta", 3, 0⟩] ∧
    ((⟨"tb", 2, 1⟩ : GenerationResultDTO).perplexity ≤
      (⟨"ta", 3, 0⟩ : GenerationResultDTO).perplexity) := by
  have hp3 : (((3 : ℚ)) = 0) = False := eq_false (by norm_num)
  have hp2 : (((2 : ℚ)) = 0) = False := eq_false (by norm_num)
  have hd : dtoLE ⟨"ta", 3, 0⟩ ⟨"tb", 2, 1⟩ = False := by
    refine eq_false ?_
    intro hc
    unfold dtoLE at hc
    rcases hc with hc | ⟨hc, _⟩ <;> norm_num at hc
  have hrun : run [(0, fun _ _ => .ok "ta"), (1, fun _ _ => .ok "tb")]
      (fun t => if t = "ta" then .ok ((3 : ℚ)) else .ok 2) 5 "go" =
      .ok [⟨"tb", 2, 1⟩, ⟨"ta", 3, 0⟩] := by
    simp only [run, collectResults, Except.map,
      show (("go" : String) = "") = False from eq_false (by decide),
      show (((5 : ℤ)) ≤ 0) = False from eq_false (by decide),
      show (("ta" : String) = "") = False from eq_false (by decide),
      show (("tb" : String) = "") = False from eq_false (by decide),
      show (("ta" : String) = "ta") = True from eq_true rfl,
      show (("tb" : String) = "ta") = False from eq_false (by decide),
      hp3, hp2, List.insertionSort, List.orderedInsert, hd]
    simp [hd]
  refine ⟨hrun, ?_⟩
  have h := run_results_sorted [(0, fun _ _ => .ok "ta"), (1, fun _ _ => .ok "tb")]
    (fun t => if t = "ta" then .ok ((3 : ℚ)) else .ok 2) 5 "go"
    [⟨"tb", 2, 1⟩, ⟨"ta", 3, 0⟩] hrun 0 1 (by simp) (by simp) (by omega)
  exact h.2

end QualityChecker

namespace Examiner

/-- Loop of `Examiner.assess_exam` (lines 440-445): for each submitted
(question, answer) pair, look up the stored answer of the first stored
question equal to it (the `next(...)` generator expression, whose exhaustion
is a `StopIteration`, not a `ValueError`), and count one point when the two
answers agree case-insensitively; the count accumulates the Python float
`true_answers`. -/
def assessLoop (qa : List ((String × ℕ) × String)) :
    List (String × String) → Except String ℚ
  | [] => .ok 0
  | (question, answer) :: rest =>
    match qa.find? (fun e => e.1.1 == question) with
    | none => .error "StopIteration"
    | some e =>
      match assessLoop qa rest with
      | .error msg => .error msg
      | .ok c =>
        .ok (if strLower e.2 = strLower answer then c + 1 else c)

/-- Embedding of `Examiner.assess_exam` (lines 423-446): raise on an empty
answer dict, otherwise divide the number of case-insensitive matches by the
number of answers. `qa` is the stored `_questions_and_answers` mapping. -/
def assess_exam (qa : List ((String × ℕ) × String))
    (answers : List (String × String)) : Except String ℚ :=
  if answers = [] then .error "Inappropriate input."
  else
    match assessLoop qa answers with
    | .error e => .error e
    | .ok c => .ok (c / (answers.length : ℚ))

lemma assessLoop_count (qa : List ((String × ℕ) × String)) :
    ∀ (answers : List (String × String)),
      (∀ pr ∈ answers, ∃ e, qa.find? (fun x => x.1.1 == pr.1) = some e) →
      assessLoop qa answers = .ok (((answers.countP (fun pr =>
        match qa.find? (fun x => x.1.1 == pr.1) with
        | some e => strLower e.2 == strLower pr.2
        | none => false)) : ℕ) : ℚ) := by
  intro answers
  induction answers with
  | nil =>
    intro _
    simp [assessLoop]
  | cons pr rest ih =>
    intro h
    obtain ⟨e, he⟩ := h pr (List.mem_cons_self pr rest)
    have hrest := ih (fun x hx => h x (List.mem_cons_of_mem _ hx))
    rcases pr with ⟨question, answer⟩
    simp only [assessLoop, he, hrest]
    by_cases hm : strLower e.2 = strLower answer
    · rw [if_pos hm]
      have hb : (strLower e.2 == strLower answer) = true := by
        exact beq_iff_eq.mpr hm
      simp only [List.countP_cons, he, hb]
      norm_num
    · rw [if_neg hm]
      have hb : (strLower e.2 == strLower answer) = false := by
        exact beq_eq_false_iff_ne.mpr hm
      simp only [List.countP_cons, he, hb]
      norm_num

/-- C8: for a non-empty answer mapping in which every submitted question has
a stored counterpart, `assess_exam` returns the number of case-insensitively
matching answers divided by the number of answers, a ratio in [0, 1]; on an
empty answer mapping it raises. -/
theorem assess_exam_accuracy (qa : List ((String × ℕ) × String))
    (answers : List (String × String))
    (hne : answers ≠ [])
    (hfound : ∀ pr ∈ answers, ∃ e ∈ qa, e.1.1 = pr.1) :
    (assess_exam qa [] = .error "Inappropriate input.") ∧
    ∃ m : ℕ,
      m = answers.countP (fun pr =>
        match qa.find? (fun x => x.1.1 == pr.1) with
        | some e => strLower e.2 == strLower pr.2
        | none => false) ∧
      assess_exam qa answers = .ok ((m : ℚ) / (answers.length : ℚ)) ∧
      0 ≤ (m : ℚ) / (answers.length : ℚ) ∧
      (m : ℚ) / (answers.length : ℚ) ≤ 1 := by
  have hfind : ∀ pr ∈ answers, ∃ e, qa.find? (fun x => x.1.1 == pr.1) = some e := by
    intro pr hpr
    obtain ⟨e, he, heq⟩ := hfound pr hpr
    have : (qa.find? (fun x => x.1.1 == pr.1)).isSome := by
      rw [List.find?_isSome]
      exact ⟨e, he, beq_iff_eq.mpr heq⟩
    exact Option.isSome_iff_exists.mp this
  have hcount := assessLoop_count qa answers hfind
  set m := answers.countP (fun pr =>
    match qa.find? (fun x => x.1.1 == pr.1) with
    | some e => strLower e.2 == strLower pr.2
    | none => false) with hmdef
  have hlen : 0 < answers.length := List.length_pos.mpr hne
  have hlenq : (0 : ℚ) < (answers.length : ℚ) := by exact_mod_cast hlen
  have hmle : m ≤ answers.length := List.countP_le_length _
  refine ⟨by simp [assess_exam], m, rfl, ?_, ?_, ?_⟩
  · unfold assess_exam
    rw [if_neg hne, hcount]
  · positivity
  · rw [div_le_one hlenq]
    exact_mod_cast hmle

/-- Witness for C8: one stored answer cat, one submitted answer Cat, full
marks; the empty answer dict raises. -/
theorem assess_exam_accuracy_witness :
    assess_exam [(("q1", 0), "cat")] [("q1", "Cat")] = .ok 1 ∧
    assess_exam [(("q1", 0), "cat")] [] = .error "Inappropriate input." := by
  obtain ⟨herr, m, hm, hok, h0, h1⟩ :=
    assess_exam_accuracy [(("q1", 0), "cat")] [("q1", "Cat")] (by decide)
      (by
        intro pr hpr
        simp only [List.mem_singleton] at hpr
        subst hpr
        exact ⟨(("q1", 0), "cat"), by simp, rfl⟩)
  have hm1 : m = 1 := by
    rw [hm]
    decide
  rw [hm1] at hok
  refine ⟨?_, herr⟩
  rw [hok]
  norm_num

end Examiner

namespace GeneratorRuleStudent

/-- Python dict assignment `answers[question] = value` on an insertion-order
association list: replace the value at an existing key in place, otherwise
append the new binding. -/
def updateAssoc (m : List (String × String)) (k v : String) :
    List (String × String) :=
  if m.any (fun e => e.1 == k) then
    m.map (fun e => if e.1 == k then (k, v) else e)
  else m ++ [(k, v)]

/-- Loop of `GeneratorRuleStudent.take_exam` (lines 495-502): for each task,
prompt the generator (`self._generator.run`, the `gen` parameter) with the
question up to the mask position, raise when no answer comes back, strip a
trailing full stop into a trailing space (only the full stop: line 500 tests
`answer[-1] == '.'`), and record the spliced answer under the question. -/
def examLoop (gen : ℤ → String → Except String String) :
    List (String × String) → List (String × ℕ) →
      Except String (List (String × String))
  | acc, [] => .ok acc
  | acc, (question, position) :: rest =>
    match gen 1 (question.take position) with
    | .error e => .error e
    | .ok answer =>
      if answer = "" then .error "No answers were generated."
      else
        let answer2 :=
          if answer.back = '.' then answer.dropRight 1 ++ " " else answer
        examLoop gen
          (updateAssoc acc question (answer2 ++ question.drop position)) rest

/-- Embedding of `GeneratorRuleStudent.take_exam` (lines 475-503). -/
def take_exam (gen : ℤ → String → Except String String)
    (tasks : List (String × ℕ)) : Except String (List (String × String)) :=
  if tasks = [] then .error "Inappropriate input."
  else examLoop gen [] tasks

/-- C2 as stated is refuted here: a generated answer ending in an
exclamation mark keeps it, instead of losing it for a trailing space, since
line 500 of the source only tests for a trailing full stop. -/
theorem take_exam_keeps_exclamation :
    take_exam (fun _ _ => .ok "x!") [("ab!cd", 2)] =
      .ok [("ab!cd", "x!!cd")] ∧
    ("x!!cd" : String) ≠ "x " ++ "!cd" := by
  constructor
  · rfl
  · decide

lemma updateAssoc_fresh {m : List (String × String)} {k v : String}
    (h : k ∉ m.map Prod.fst) : updateAssoc m k v = m ++ [(k, v)] := by
  have hany : ¬ (m.any (fun e => e.1 == k) = true) := by
    rw [List.any_eq_true]
    rintro ⟨e, he, heq⟩
    exact h (List.mem_map.mpr ⟨e, he, beq_iff_eq.mp heq⟩)
  unfold updateAssoc
  rw [if_neg hany]

lemma examLoop_eq_map (gen : ℤ → String → Except String String) :
    ∀ (tasks : List (String × ℕ)) (acc : List (String × String)),
      (tasks.map Prod.fst).Nodup →
      (∀ t ∈ tasks, t.1 ∉ acc.map Prod.fst) →
      (∀ t ∈ tasks, ∃ a, gen 1 (t.1.take t.2) = .ok a ∧ a ≠ "") →
      examLoop gen acc tasks = .ok (acc ++ tasks.map (fun t =>
        (t.1, (match gen 1 (t.1.take t.2) with
               | .ok a => if a.back = '.' then a.dropRight 1 ++ " " else a
               | .error _ => "") ++ t.1.drop t.2))) := by
  intro tasks
  induction tasks with
  | nil =>
    intro acc _ _ _
    simp [examLoop]
  | cons t rest ih =>
    intro acc hnodup hfresh hgen
    obtain ⟨a, ha, hane⟩ := hgen t (List.mem_cons_self t rest)
    rcases t with ⟨question, position⟩
    have hnodup3 : (question :: rest.map Prod.fst).Nodup := by
      simpa only [List.map_cons] using hnodup
    have hnodup2 := List.nodup_cons.mp hnodup3
    simp only [examLoop, ha, if_neg hane]
    rw [updateAssoc_fresh (hfresh _ (List.mem_cons_self _ _))]
    rw [ih (acc ++ [(question,
        ((if a.back = '.' then a.dropRight 1 ++ " " else a) ++
          question.drop position))])
      hnodup2.2
      (by
        intro t2 ht2
        rw [List.map_append, List.mem_append]
        rintro (hc | hc)
        · exact hfresh t2 (List.mem_cons_of_mem _ ht2) hc
        · simp only [List.map_cons, List.map_nil, List.mem_singleton] at hc
          exact hnodup2.1 (hc ▸ List.mem_map.mpr ⟨t2, ht2, rfl⟩))
      (fun t2 ht2 => hgen t2 (List.mem_cons_of_mem _ ht2))]
    simp [ha, List.append_assoc]

/-- C2 amended: for every task the prompt is the question up to the mask
position, one token is generated, and only a trailing full stop (not an
exclamation or question mark) of the generated answer is replaced by a
trailing space; the recorded answer is the possibly adjusted generated
fragment followed by the remainder of the question from the mask position
onward. -/
theorem take_exam_splices_answers (gen : ℤ → String → Except String String)
    (tasks : List (String × ℕ))
    (hne : tasks ≠ [])
    (hnodup : (tasks.map Prod.fst).Nodup)
    (hgen : ∀ t ∈ tasks, ∃ a, gen 1 (t.1.take t.2) = .ok a ∧ a ≠ "") :
    take_exam gen tasks = .ok (tasks.map (fun t =>
      (t.1, (match gen 1 (t.1.take t.2) with
             | .ok a => if a.back = '.' then a.dropRight 1 ++ " " else a
             | .error _ => "") ++ t.1.drop t.2))) := by
  unfold take_exam
  rw [if_neg hne, examLoop_eq_map gen tasks [] hnodup (by simp) hgen]
  simp

/-- Witness for the amended C2: a generated answer ending in a full stop
loses it for a trailing space before the splice. -/
theorem take_exam_splices_answers_witness :
    take_exam (fun _ _ => .ok "x.") [("ab.cd", 2)] =
      .ok [("ab.cd", "x .cd")] := by
  have h := take_exam_splices_answers (fun _ _ => .ok "x.") [("ab.cd", 2)]
    (by decide) (by decide) (fun t ht => ⟨"x.", rfl, by decide⟩)
  exact h.trans (by rfl)

end GeneratorRuleStudent
